import Mathlib

/-!
Verification of the goreturns return-completion engine.

This file gives a shallow embedding, in Lean 4, of the parts of the
goreturns repository that the specification speaks about:

* the zero-value synthesizer (function newZeroValueNode in returns/fix.go),
* the call-arity resolver (function funcHasSingleReturnVal in
  returns/index.go, plus the historical syntax-only variant of the same
  function),
* the per-statement return completion (the body of the loop inside
  fixReturns in returns/fix.go) and the bare-return expander
  (removeBareReturns in returns/fix.go),
* the scope-aware return collector (type visitor in returns/fix.go),
* the fragment-normalizing parse chain (functions parse and
  containsMainFunc in returns/returns.go),
* the whitespace matching postprocess (functions cutSpace and matchSpace
  in returns/returns.go),
* the Process driver, with the external parser, printer and formatter
  collaborators abstracted as oracles.

The Go AST fragments that the code inspects are embedded as inductive
types mirroring the shapes of go/ast: a result field carries a list of
names (ast.Field.Names is a slice) and a type; a function type carries an
optional field list (ast.FuncType.Results is a possibly nil pointer);
machine pointers that the Go code may dereference when nil are modelled by
Option, and a nil dereference is modelled as an Except.error result.
-/

namespace Goreturns

/-- Token kinds of the literals produced by newZeroValueNode
(token.INT, token.FLOAT, token.IMAG, token.STRING). -/
inductive LitKind where
  | intL
  | floatL
  | imagL
  | stringL
deriving DecidableEq, Repr

/-- Syntactic shape of a type expression as written at a signature site,
mirroring the go/ast forms that newZeroValueNode distinguishes:
identifiers, array types (whose Len field is nil for slices; the length
expression itself is abstracted to a number), star (pointer) types,
interface literal types, qualified (selector) types, and a catch-all for
every other type expression (map, chan, func, struct literals, ...). -/
inductive GoType where
  | identT (name : String)
  | arrayT (len : Option Nat) (elem : GoType)
  | starT (elem : GoType)
  | interfaceT
  | selectorT (pkg : String) (name : String)
  | otherT (tag : Nat)
deriving DecidableEq, Repr

/-- A result (or parameter) field: ast.Field restricted to what the code
reads.  Names is a slice in go/ast, so a single field may declare several
result slots (for example the single field of (a, b int) declares two). -/
structure Field where
  names : List String
  type : GoType
deriving DecidableEq, Repr

/-- ast.FuncType restricted to what the code reads: the Results field is a
possibly nil pointer to a field list. -/
structure FuncType where
  results : Option (List Field)
deriving DecidableEq, Repr

/-- The declaration an identifier object resolves to (ast.Object.Decl):
either a function declaration, of which only the syntactic result list is
read (none models a nil Results pointer), or anything else. -/
inductive FuncObjDecl where
  | funcDecl (results : Option (List Field))
  | otherDecl (tag : Nat)
deriving DecidableEq, Repr

/-- The callee expression of a call (ast.CallExpr.Fun), as far as the two
variants of funcHasSingleReturnVal inspect it: an identifier with its
optional resolved object, a selector whose receiver may or may not be an
identifier, or any other expression. -/
inductive CalleeExpr where
  | identE (name : String) (obj : Option FuncObjDecl)
  | selectorE (xIdent : Option String) (sel : String)
  | otherE (tag : Nat)
deriving DecidableEq, Repr

/-- A call expression: its callee shape plus an identity used to key the
optional type-checker information. -/
structure CallExpr where
  callee : CalleeExpr
  callId : Nat
deriving DecidableEq, Repr

/-- Expressions, as far as fixReturns builds or inspects them: identifiers,
basic literals, call expressions, composite literals and everything
else. -/
inductive Expr where
  | identX (name : String)
  | basicLit (kind : LitKind) (value : String)
  | callX (callee : CalleeExpr) (callId : Nat)
  | compositeLit (typ : GoType)
  | otherX (tag : Nat)
deriving DecidableEq, Repr

/-- Semantic (type-checked) information, modelled as an oracle: for the
call expression with a given identity, whether its resolved type is a
tuple (types.Tuple).  A call whose resolved type is absent behaves like a
non-tuple in the code (the type assertion fails), so the two cases are
collapsed. -/
def TypeInfo := Nat → Bool

/-- Error message standing for a Go nil-pointer dereference panic. -/
def nilDerefMsg : String := "runtime error: nil pointer dereference"

/-- funcHasSingleReturnVal from returns/index.go (the current resolver).
Quick local pass first: a callee identifier resolving to a function
declaration is judged by the length of its syntactic result list — and if
that declaration has a nil result list the Go code dereferences nil, which
is modelled as an error.  Otherwise the semantic oracle is consulted when
present (tuple means multi-valued), and without it the resolver
conservatively answers false. -/
def funcHasSingleReturnVal (typeInfo : Option TypeInfo) (e : CallExpr) :
    Except String Bool :=
  match e.callee with
  | .identE _ (some (.funcDecl rs)) =>
    match rs with
    | some fields => .ok (decide (fields.length = 1))
    | none => .error nilDerefMsg
  | _ =>
    match typeInfo with
    | some info => .ok (!(info e.callId))
    | none => .ok false

/-- The historical syntax-only variant of funcHasSingleReturnVal (the
unnamed source part): a selector callee with an identifier receiver is
checked against the fixed allow-list (errors.New and fmt.Errorf); a local
function declaration is judged by its result-list length (with the same
nil dereference); everything else is false. -/
def funcHasSingleReturnValOld (e : CallExpr) : Except String Bool :=
  match e.callee with
  | .selectorE (some x) sel =>
    .ok (((x = "errors") && (sel = "New")) || ((x = "fmt") && (sel = "Errorf")))
  | .identE _ (some (.funcDecl rs)) =>
    match rs with
    | some fields => .ok (decide (fields.length = 1))
    | none => .error nilDerefMsg
  | _ => .ok false

/-- The identifier names that newZeroValueNode maps to the integer literal
0, in the order of the Go switch. -/
def intKindNames : List String :=
  ["uint8", "uint16", "uint32", "uint64", "int8", "int16", "int32", "int64",
   "byte", "rune", "uint", "int", "uintptr"]

/-- newZeroValueNode from returns/fix.go: the zero-value synthesizer.
Returns none when the zero value cannot be determined from local
syntax. -/
def newZeroValueNode : GoType → Option Expr
  | .identT n =>
    if intKindNames.contains n then some (.basicLit .intL "0")
    else if n = "float32" || n = "float64" then some (.basicLit .floatL "0")
    else if n = "complex64" || n = "complex128" then some (.basicLit .imagL "0")
    else if n = "bool" then some (.identX "false")
    else if n = "string" then some (.basicLit .stringL "\"\"")
    else if n = "error" then some (.identX "nil")
    else none
  | .arrayT none _ => some (.identX "nil")
  | .arrayT (some k) e => some (.compositeLit (.arrayT (some k) e))
  | .starT _ => some (.identX "nil")
  | _ => none

/-- Descriptor classes of the Zero-Value Table in the specification: one
class per table row, plus a class for descriptors not covered by any
row. -/
inductive DescClass where
  | intKind
  | floatKind
  | complexKind
  | boolKind
  | stringKind
  | errorKind
  | ptrKind
  | sliceKind
  | fixedArray (len : Nat) (elem : GoType)
  | ifaceKind
  | uncovered
deriving DecidableEq, Repr

/-- Classification of a syntactic type descriptor into the rows of the
Zero-Value Table of the specification. -/
def classify : GoType → DescClass
  | .identT n =>
    if intKindNames.contains n then .intKind
    else if n = "float32" || n = "float64" then .floatKind
    else if n = "complex64" || n = "complex128" then .complexKind
    else if n = "bool" then .boolKind
    else if n = "string" then .stringKind
    else if n = "error" then .errorKind
    else .uncovered
  | .arrayT none _ => .sliceKind
  | .arrayT (some k) e => .fixedArray k e
  | .starT _ => .ptrKind
  | .interfaceT => .ifaceKind
  | .selectorT _ _ => .uncovered
  | .otherT _ => .uncovered

/-- The Zero-Value Table exactly as the specification words it (including
the row mapping interface types other than error to the nil sentinel).
This is the spec-side definition used for the refinement comparison
against newZeroValueNode. -/
def zeroValueTable (t : GoType) : Option Expr :=
  match classify t with
  | .intKind => some (.basicLit .intL "0")
  | .floatKind => some (.basicLit .floatL "0")
  | .complexKind => some (.basicLit .imagL "0")
  | .boolKind => some (.identX "false")
  | .stringKind => some (.basicLit .stringL "\"\"")
  | .errorKind => some (.identX "nil")
  | .ptrKind => some (.identX "nil")
  | .sliceKind => some (.identX "nil")
  | .fixedArray k e => some (.compositeLit (.arrayT (some k) e))
  | .ifaceKind => some (.identX "nil")
  | .uncovered => none

/-- The Zero-Value Table as amended to match the code: identical to
zeroValueTable except that an interface literal type is undeterminable
(only the predeclared identifier error, among interface-like descriptors,
yields the nil sentinel). -/
def amendedZeroValueTable (t : GoType) : Option Expr :=
  match classify t with
  | .intKind => some (.basicLit .intL "0")
  | .floatKind => some (.basicLit .floatL "0")
  | .complexKind => some (.basicLit .imagL "0")
  | .boolKind => some (.identX "false")
  | .stringKind => some (.basicLit .stringL "\"\"")
  | .errorKind => some (.identX "nil")
  | .ptrKind => some (.identX "nil")
  | .sliceKind => some (.identX "nil")
  | .fixedArray k e => some (.compositeLit (.arrayT (some k) e))
  | .ifaceKind => none
  | .uncovered => none

/-- A descriptor is covered by the amended table when it falls in a class
with a synthesized output. -/
def coveredDesc (t : GoType) : Bool :=
  match classify t with
  | .ifaceKind => false
  | .uncovered => false
  | _ => true

/-- A loop that builds a list element-wise and aborts as soon as one
element cannot be built (the zvs loops of fixReturns and
removeBareReturns). -/
def mapO (f : α → Option β) : List α → Option (List β)
  | [] => some []
  | a :: as =>
    match f a with
    | none => none
    | some b =>
      match mapO f as with
      | none => none
      | some bs => some (b :: bs)

/-- A loop over a list whose body may fail, propagating the first
failure. -/
def mapE (f : α → Except ε β) : List α → Except ε (List β)
  | [] => .ok []
  | a :: as =>
    match f a with
    | .error e => .error e
    | .ok b =>
      match mapE f as with
      | .error e => .error e
      | .ok bs => .ok (b :: bs)

/-- The sole-call check of fixReturns: when the first returned expression
is a call expression, ask funcHasSingleReturnVal whether the rewrite may
proceed; any other first expression permits the rewrite. -/
def callCheck (ti : Option TypeInfo) (rets : List Expr) : Except String Bool :=
  match rets.head? with
  | some (.callX c cid) => funcHasSingleReturnVal ti ⟨c, cid⟩
  | _ => .ok true

/-- The body of the IncReturnsLoop of fixReturns in returns/fix.go, for
one collected return statement: its expression list is mapped to the new
expression list (or to an error when the call-arity resolver
dereferences nil).  Skips: nil result list, value count equal to the
result field count, naked returns, too many values, a first value that is
a call resolved as multi-valued, and an undeterminable zero value. -/
def fixRet (ti : Option TypeInfo) (ftyp : FuncType) (rets : List Expr) :
    Except String (List Expr) :=
  match ftyp.results with
  | none => .ok rets
  | some fields =>
    if rets.length = fields.length then .ok rets
    else if rets.length = 0 then .ok rets
    else if fields.length < rets.length then .ok rets
    else
      match callCheck ti rets with
      | .error msg => .error msg
      | .ok false => .ok rets
      | .ok true =>
        match mapO (fun rt => newZeroValueNode rt.type)
            (fields.take (fields.length - rets.length)) with
        | none => .ok rets
        | some zvs => .ok (zvs ++ rets)

/-- The body of the IncReturnsLoop of removeBareReturns in returns/fix.go,
for one collected return statement: a naked return in a function whose
result field list is nonempty is expanded to one identifier per result
field (the first name of each field), aborting when some field has no
names. -/
def removeBareRet (ftyp : FuncType) (rets : List Expr) : List Expr :=
  match ftyp.results with
  | none => rets
  | some fields =>
    if rets.length = fields.length then rets
    else if rets.length = 0 && decide (0 < fields.length) then
      match mapO (fun rt => rt.names.head?) fields with
      | none => rets
      | some ns => ns.map Expr.identX ++ rets
    else rets

/-- One entry of the return-to-signature binding built by the visitor
(map key: a return statement, holding its expression list; map value: the
possibly nil pointer to the enclosing function type). -/
structure RetBinding where
  ftyp : Option FuncType
  results : List Expr
deriving DecidableEq, Repr

/-- fixReturns applied to one binding: a nil enclosing function type would
be dereferenced by the Go code. -/
def fixRetB (ti : Option TypeInfo) (b : RetBinding) : Except String RetBinding :=
  match b.ftyp with
  | none => .error nilDerefMsg
  | some ft =>
    match fixRet ti ft b.results with
    | .error e => .error e
    | .ok rs => .ok ⟨some ft, rs⟩

/-- removeBareReturns applied to one binding. -/
def removeBareRetB (b : RetBinding) : Except String RetBinding :=
  match b.ftyp with
  | none => .error nilDerefMsg
  | some ft => .ok ⟨some ft, removeBareRet ft b.results⟩

/-- fixReturns over the whole collected binding. -/
def fixReturnsF (ti : Option TypeInfo) (f : List RetBinding) :
    Except String (List RetBinding) :=
  mapE (fixRetB ti) f

/-- removeBareReturns over the whole collected binding. -/
def removeBareReturnsF (f : List RetBinding) : Except String (List RetBinding) :=
  mapE removeBareRetB f

/-- The Options record of returns/returns.go. -/
structure Options where
  fragment : Bool
  printErrors : Bool
  allErrors : Bool
  removeBareReturns : Bool
deriving DecidableEq, Repr

/-- The mutation phase of Process: fixReturns, then (when the option is
set) removeBareReturns, over the collected return bindings of the file. -/
def engine (ti : Option TypeInfo) (opt : Options) (f : List RetBinding) :
    Except String (List RetBinding) :=
  match fixReturnsF ti f with
  | .error e => .error e
  | .ok f1 =>
    if opt.removeBareReturns then removeBareReturnsF f1 else .ok f1

/-- Process from returns/returns.go, with the external collaborators
abstracted: parseF stands for the parse-and-check front end (producing
the collected return bindings of the parsed file) and printF for the
printer, the inverse fragment transform and the formatter. -/
def ProcessB {β : Type} (parseF : β → Except String (List RetBinding))
    (printF : List RetBinding → β) (ti : Option TypeInfo) (opt : Options)
    (src : β) : Except String β :=
  match parseF src with
  | .error e => .error e
  | .ok f =>
    match engine ti opt f with
    | .error e => .error e
    | .ok f1 => .ok (printF f1)

/-- Skeleton of the AST nodes relevant to the visitor of returns/fix.go:
return statements (with their child nodes, since function literals may
occur inside returned expressions), function declarations and function
literals (both carrying a function type, distinguished by a flag), and
every other node with children. -/
inductive Node where
  | retN (rid : Nat) (children : List Node)
  | fnN (isLit : Bool) (ftyp : FuncType) (children : List Node)
  | blockN (children : List Node)

/-- The children a walk descends into. -/
def childrenOf : Node → List Node
  | .retN _ cs => cs
  | .fnN _ _ cs => cs
  | .blockN cs => cs

/-- The visitor of returns/fix.go run by ast.Walk: the visitor value
carries the innermost enclosing function type; entering a function
declaration or literal returns a fresh visitor with that node's type, and
a return statement is recorded against the current enclosing type. -/
def collect (encl : Option FuncType) : Node → List (Nat × Option FuncType)
  | .retN rid cs => (rid, encl) :: collectList encl cs
  | .fnN _ ft cs => collectList (some ft) cs
  | .blockN cs => collectList encl cs
where
  /-- Walk over a child list with an unchanged visitor. -/
  collectList (encl : Option FuncType) : List Node → List (Nat × Option FuncType)
  | [] => []
  | c :: cs => collect encl c ++ collectList encl cs

/-- The node reached from a root by a path of child indices. -/
def nodeAt (n : Node) : List Nat → Option Node
  | [] => some n
  | i :: p =>
    match (childrenOf n)[i]? with
    | some c => nodeAt c p
    | none => none

/-- The enclosing function type passed to the children of a node. -/
def sigUpdate (encl : Option FuncType) : Node → Option FuncType
  | .fnN _ ft _ => some ft
  | _ => encl

/-- The innermost enclosing function type in force at the node reached by
a path: descending into a function declaration or literal replaces the
enclosing type, descending into any other node keeps it.  On an invalid
path the value at the deepest valid point is returned (the theorems only
use it under a validity hypothesis). -/
def sigFor (encl : Option FuncType) (n : Node) : List Nat → Option FuncType
  | [] => encl
  | i :: p =>
    match (childrenOf n)[i]? with
    | some c => sigFor (sigUpdate encl n) c p
    | none => encl

/-- A top-level declaration, as far as containsMainFunc reads it: a
function declaration with its name, parameter field list and optional
result field list, or any other declaration. -/
inductive Decl where
  | funcDecl (name : String) (params : List Field) (results : Option (List Field))
  | otherDecl (tag : Nat)
deriving DecidableEq, Repr

/-- A parsed file, as far as containsMainFunc reads it. -/
structure FileT where
  decls : List Decl
deriving DecidableEq, Repr

/-- containsMainFunc from returns/returns.go: does the file contain a
function declaration named main with no parameters and a nil or empty
result list. -/
def containsMainFunc (f : FileT) : Bool :=
  f.decls.any fun d =>
    match d with
    | .funcDecl name params results =>
      name = "main" && params.length = 0 &&
        !(results.isSome && decide ((results.getD []).length ≠ 0))
    | .otherDecl _ => false

/-- strings.Contains. -/
def strContains (s pat : String) : Bool :=
  s.toList.tails.any (fun t => pat.toList.isPrefixOf t)

/-- The single-quote character, used in the parser error message the
fragment normalizer matches on. -/
def sqChar : Char := Char.ofNat 39

/-- The parser error substring indicating a missing package clause. -/
def pkgNeedle : String :=
  "expected " ++ String.mk [sqChar] ++ "package" ++ String.mk [sqChar]

/-- The parser error substring indicating a missing declaration. -/
def declNeedle : String := "expected declaration"

/-- The synthesized package clause of the declaration-list attempt. -/
def pkgClauseText : String := "package main;"

/-- The synthetic wrapper opening of the statement-list attempt. -/
def stmtOpenText : String := "package p; func _() \x7b"

/-- The synthetic wrapper closing of the statement-list attempt. -/
def stmtCloseText : String := "\x7d"

/-- The inverse-transform recorded by parse: either no adjustment, the
declaration-list unwrap, or the statement-list unwrap. -/
inductive AdjustMode where
  | noAdjust
  | declListAdjust
  | stmtListAdjust
deriving DecidableEq, Repr

/-- parse from returns/returns.go, with go/parser abstracted as the oracle
P (first argument: the AllErrors flag folded into the parser mode):
try the whole file; on an error other than a missing package clause, or
when fragments are not accepted, fail; otherwise insert a package clause
and retry, treating a file with a main function as a genuine whole unit;
on an error other than a missing declaration, fail; otherwise wrap in a
synthetic function body and retry; return the last error when that also
fails. -/
def parse (P : Bool → String → Except String FileT) (opt : Options)
    (src : String) : Except String (FileT × AdjustMode) :=
  match P opt.allErrors src with
  | .ok f => .ok (f, .noAdjust)
  | .error e1 =>
    if !(opt.fragment && strContains e1 pkgNeedle) then .error e1
    else
      match P opt.allErrors (pkgClauseText ++ src) with
      | .ok f =>
        if containsMainFunc f then .ok (f, .noAdjust)
        else .ok (f, .declListAdjust)
      | .error e2 =>
        if !(strContains e2 declNeedle) then .error e2
        else
          match P opt.allErrors (stmtOpenText ++ src ++ stmtCloseText) with
          | .ok f => .ok (f, .stmtListAdjust)
          | .error e3 => .error e3

/-- Attempt 1 of the fragment normalizer as the specification words it:
parse as a complete unit; success carries no inverse transform. -/
def attemptWhole (P : Bool → String → Except String FileT) (m : Bool)
    (src : String) : Except String (FileT × AdjustMode) :=
  (P m src).map (fun f => (f, .noAdjust))

/-- Attempt 2 of the fragment normalizer as the specification words it:
synthesize a minimal package clause and reparse; a result containing a
program entry point with no parameters and no results is treated as a
genuine whole unit, otherwise the declaration-list unwrap is recorded. -/
def attemptDecls (P : Bool → String → Except String FileT) (m : Bool)
    (src : String) : Except String (FileT × AdjustMode) :=
  (P m (pkgClauseText ++ src)).map fun f =>
    if containsMainFunc f then (f, .noAdjust) else (f, .declListAdjust)

/-- Attempt 3 of the fragment normalizer as the specification words it:
wrap the bytes in a synthetic function body and reparse, recording the
statement-list unwrap. -/
def attemptStmts (P : Bool → String → Except String FileT) (m : Bool)
    (src : String) : Except String (FileT × AdjustMode) :=
  (P m (stmtOpenText ++ src ++ stmtCloseText)).map (fun f => (f, .stmtListAdjust))

/-- The ordered three-attempt chain as the specification words it,
stopping at the first success: attempt 2 runs only in fragment mode and
only when attempt 1 failed indicating a missing package clause; attempt 3
runs only when attempt 2 failed indicating a missing declaration; when
every permitted attempt fails the last parse error is propagated. -/
def parseSpecChain (P : Bool → String → Except String FileT) (opt : Options)
    (src : String) : Except String (FileT × AdjustMode) :=
  match attemptWhole P opt.allErrors src with
  | .ok r => .ok r
  | .error e1 =>
    if opt.fragment && strContains e1 pkgNeedle then
      match attemptDecls P opt.allErrors src with
      | .ok r => .ok r
      | .error e2 =>
        if strContains e2 declNeedle then attemptStmts P opt.allErrors src
        else .error e2
    else .error e1

/-- The whitespace bytes of cutSpace in returns/returns.go. -/
def isSpc (c : Char) : Bool := c = ' ' || c = '\t' || c = '\n'

/-- The newline byte. -/
def nlChar : Char := '\n'

/-- cutSpace from returns/returns.go.  The Go loops compute the first
index i not inside the leading whitespace run and the index j past which
only trailing whitespace follows; with i at most j the three slices are
returned, and otherwise (the input is all whitespace) the whole input is
returned as the third component. -/
def cutSpace (b : List Char) : List Char × List Char × List Char :=
  let i := (b.takeWhile isSpc).length
  let j := b.length - (b.reverse.takeWhile isSpc).length
  if i ≤ j then (b.take i, (b.drop i).take (j - i), b.drop j)
  else ([], [], b.drop j)

/-- Split off the first line of a byte list, up to and including its
newline (or the whole list when it has no newline), together with the
rest. -/
def splitLine : List Char → List Char × List Char
  | [] => ([], [])
  | c :: cs =>
    if c = nlChar then ([c], cs)
    else
      let p := splitLine cs
      (c :: p.1, p.2)

/-- The rest after splitting off a line is shorter than the input; stated
as a definition-side fact because the recursions below terminate by it. -/
def splitLineShrink : ∀ s : List Char, s ≠ [] →
    (splitLine s).2.length < s.length := by
  intro s h
  induction s with
  | nil => exact absurd rfl h
  | cons c cs ih =>
    by_cases hc : c = nlChar
    · simp [splitLine, hc]
    · simp only [splitLine, if_neg hc]
      rcases cs with _ | ⟨d, ds⟩
      · simp [splitLine]
      · have := ih (by simp)
        simpa using Nat.lt_succ_of_lt this

/-- The line-writing loop of matchSpace: each line (chunk ending with a
newline) is written, prepended with the indent when the line is nonempty
and does not start with a newline. -/
def writeLines (ind : List Char) (s : List Char) : List Char :=
  match h : s with
  | [] => []
  | _ :: _ =>
    let p := splitLine s
    (match p.1 with
     | [] => p.1
     | c :: _ => if c ≠ nlChar then ind ++ p.1 else p.1) ++ writeLines ind p.2
termination_by s.length
decreasing_by
  subst h
  exact splitLineShrink _ (by simp)

/-- matchSpace from returns/returns.go: split the leading whitespace of
the original at its last newline into the blank-line run and the
indentation, strip the transformed bytes, re-indent their lines and wrap
with the original leading run and trailing whitespace. -/
def matchSpace (orig src : List Char) : List Char :=
  let cs := cutSpace orig
  let before0 := cs.1
  let after := cs.2.2
  let tail := (before0.reverse.takeWhile (fun c => c ≠ nlChar)).length
  let before := before0.take (before0.length - tail)
  let indent := before0.drop (before0.length - tail)
  let mid := (cutSpace src).2.1
  before ++ writeLines indent mid ++ after

/-- The leading whitespace run of a byte list (spec vocabulary). -/
def leadingWS (b : List Char) : List Char := b.takeWhile isSpc

/-- The trailing whitespace run of a byte list (spec vocabulary). -/
def trailingWS (b : List Char) : List Char := (b.reverse.takeWhile isSpc).reverse

/-- The leading blank-line run: the leading whitespace up to and including
its last newline (spec vocabulary). -/
def blankLineRun (b : List Char) : List Char :=
  ((leadingWS b).reverse.dropWhile (fun c => c ≠ nlChar)).reverse

/-- The indentation of the first non-blank line: the leading whitespace
after its last newline (spec vocabulary). -/
def firstLineIndent (b : List Char) : List Char :=
  ((leadingWS b).reverse.takeWhile (fun c => c ≠ nlChar)).reverse

/-- A byte list stripped of its leading and trailing whitespace (spec
vocabulary). -/
def stripWS (b : List Char) : List Char :=
  (((b.dropWhile isSpc).reverse).dropWhile isSpc).reverse

/-- The lines of a byte list, each including its terminating newline
except possibly the last. -/
def toLines (s : List Char) : List (List Char) :=
  match h : s with
  | [] => []
  | _ :: _ =>
    let p := splitLine s
    p.1 :: toLines p.2
termination_by s.length
decreasing_by
  subst h
  exact splitLineShrink _ (by simp)

/-- Prepend the indent to every non-blank line (spec vocabulary): a blank
line is one that is empty or starts with a newline. -/
def indentNonblank (ind : List Char) (s : List Char) : List Char :=
  (toLines s).flatMap fun l =>
    if l.headD nlChar = nlChar then l else ind ++ l

/-- matchSpace exactly as the specification and the claim word it: the
leading blank-line run of the original, then the transformed bytes
stripped of leading and trailing whitespace with the indentation of the
first non-blank line of the original prepended to every non-blank line,
then the exact trailing whitespace of the original. -/
def specMatchSpace (orig src : List Char) : List Char :=
  blankLineRun orig ++ indentNonblank (firstLineIndent orig) (stripWS src)
    ++ trailingWS orig

/-- The number of result slots a signature declares, per the language:
a field with k names declares k results, a field with no names declares
one. -/
def numDeclaredResults (ft : FuncType) : Nat :=
  match ft.results with
  | none => 0
  | some fields =>
    fields.foldr (fun f acc => (if f.names.isEmpty then 1 else f.names.length) + acc) 0

/-- Does the callee identifier resolve to a locally declared function;
when it does, the (possibly absent) syntactic result list of that
declaration. -/
def resolveLocalFn : CalleeExpr → Option (Option (List Field))
  | .identE _ (some (.funcDecl rs)) => some rs
  | _ => none

/-- The call-arity resolver as the amended claim words it: the
local-declaration check runs first even when semantic information is
available (a present result list is judged by its length, an absent one
faults); otherwise, with semantic information, a tuple-shaped resolved
type means multi-valued and any other means single-valued; without
semantic information every non-local callee is conservatively assumed
multi-valued. -/
def callArityResolverSpec (ti : Option TypeInfo) (e : CallExpr) :
    Except String Bool :=
  match resolveLocalFn e.callee with
  | some (some fields) => .ok (decide (fields.length = 1))
  | some none => .error nilDerefMsg
  | none =>
    match ti with
    | some info => .ok (!(info e.callId))
    | none => .ok false

/-- Claim C1: for the signature (a, b int, err error), which declares
three results, the statement return err has one value, the sole-call
check permits the rewrite and both missing zero values (for the int slots
a and b) are determinable, so the claim requires the expression list to
become the zero values of the first two slots followed by err; the code
instead counts result fields (two) and produces a single zero value
followed by err, an expression list of the wrong arity. -/
theorem fixReturns_multiNameField_partialFill :
    numDeclaredResults ⟨some [⟨["a", "b"], .identT "int"⟩, ⟨["err"], .identT "error"⟩]⟩ = 3 ∧
    fixRet none ⟨some [⟨["a", "b"], .identT "int"⟩, ⟨["err"], .identT "error"⟩]⟩
        [.identX "err"]
      = .ok [.basicLit .intL "0", .identX "err"] :=
  ⟨rfl, rfl⟩

/-- Claim C2: for the signature (a, b string, err error), which declares
three results, the one-value statement return e is rewritten by fixReturns
to a two-value statement: its value count afterwards is neither the
declared result count three nor the original count one, so the return is
partially filled, violating the arity invariant. -/
theorem fixReturns_arityInvariant_violation :
    numDeclaredResults ⟨some [⟨["a", "b"], .identT "string"⟩, ⟨["err"], .identT "error"⟩]⟩ = 3 ∧
    fixRet none ⟨some [⟨["a", "b"], .identT "string"⟩, ⟨["err"], .identT "error"⟩]⟩
        [.identX "e"]
      = .ok [.basicLit .stringL "\"\"", .identX "e"] :=
  ⟨rfl, rfl⟩

/-- Claim C6: for the signature (a, b int), whose two declared result
slots are both named, the bare-return expander must produce the
identifiers a and b in declaration order; the code emits one identifier
per result field — only the first name of the field — and produces the
single-value statement return a. -/
theorem removeBareReturns_multiNameField_singleIdent :
    numDeclaredResults ⟨some [⟨["a", "b"], .identT "int"⟩]⟩ = 2 ∧
    removeBareRet ⟨some [⟨["a", "b"], .identT "int"⟩]⟩ [] = [.identX "a"] :=
  ⟨rfl, rfl⟩

/-- Claim C10: when the callee identifier resolves to a locally declared
function whose syntactic result list is absent (a function declaring no
results), funcHasSingleReturnVal dereferences the nil result list instead
of returning a boolean, with or without semantic information. -/
theorem funcHasSingleReturnVal_nilResults_panics (ti : Option TypeInfo) :
    funcHasSingleReturnVal ti ⟨.identE "g" (some (.funcDecl none)), 0⟩
      = .error nilDerefMsg :=
  rfl

/-- Claim C4, counterexample: without semantic information the current
resolver treats the allow-listed constructor errors.New as multi-valued
(it answers false, where the claim requires single-valued); the
allow-list exists only in the historical syntax-only variant, which
answers true; consequently fixReturns leaves the deficient statement
return errors.New("foo") unchanged. -/
theorem resolver_allowList_absent :
    funcHasSingleReturnVal none ⟨.selectorE (some "errors") "New", 0⟩ = .ok false ∧
    funcHasSingleReturnValOld ⟨.selectorE (some "errors") "New", 0⟩ = .ok true ∧
    fixRet none ⟨some [⟨[], .identT "int"⟩, ⟨[], .identT "error"⟩]⟩
        [.callX (.selectorE (some "errors") "New") 0]
      = .ok [.callX (.selectorE (some "errors") "New") 0] :=
  ⟨rfl, rfl, rfl⟩

/-- Claim C4, amended: the resolver checks the local declaration first
even when semantic information is available; with semantic information a
non-local callee is judged by whether its resolved type is a tuple;
without semantic information every non-local callee is conservatively
assumed multi-valued, with no allow-list. -/
theorem resolver_matches_amended_spec (ti : Option TypeInfo) (e : CallExpr) :
    funcHasSingleReturnVal ti e = callArityResolverSpec ti e := by
  rcases e with ⟨c, cid⟩
  cases c with
  | identE n o =>
    cases o with
    | none => rfl
    | some d =>
      cases d with
      | funcDecl rs => cases rs <;> rfl
      | otherDecl t => rfl
  | selectorE x s => rfl
  | otherE t => rfl

/-- Claim C3, counterexample: an interface literal type is covered by the
Zero-Value Table of the specification, whose row for interfaces other
than error yields the nil sentinel, but the synthesizer returns
undeterminable for it. -/
theorem newZeroValueNode_interface_diverges :
    newZeroValueNode .interfaceT = none ∧
    zeroValueTable .interfaceT = some (.identX "nil") :=
  ⟨rfl, rfl⟩

/-- Claim C3, amended: the synthesizer equals the Zero-Value Table with
the interface row amended to undeterminable (only the predeclared
identifier error, among interface-like descriptors, yields nil), and it
returns undeterminable exactly for the descriptors not covered by a row
of the amended table. -/
theorem newZeroValueNode_matches_amendedTable (t : GoType) :
    newZeroValueNode t = amendedZeroValueTable t ∧
      (newZeroValueNode t = none ↔ coveredDesc t = false) := by
  cases t with
  | identT n =>
    simp only [newZeroValueNode, amendedZeroValueTable, coveredDesc, classify]
    split_ifs <;> simp
  | arrayT l e =>
    cases l <;>
      simp [newZeroValueNode, amendedZeroValueTable, coveredDesc, classify]
  | starT e =>
    simp [newZeroValueNode, amendedZeroValueTable, coveredDesc, classify]
  | interfaceT =>
    simp [newZeroValueNode, amendedZeroValueTable, coveredDesc, classify]
  | selectorT p n =>
    simp [newZeroValueNode, amendedZeroValueTable, coveredDesc, classify]
  | otherT tag =>
    simp [newZeroValueNode, amendedZeroValueTable, coveredDesc, classify]

/-- Claim C7: the parse front end equals the ordered three-attempt chain:
whole file first; then, only in fragment mode and only when the first
failure indicates a missing package clause, the declaration list with a
synthesized package clause, success with a parameterless resultless main
function being treated as a genuine whole unit with no inverse transform;
then, only when the second failure indicates a missing declaration, the
statement list in a synthetic function body; stopping at the first
success and propagating the last parse error otherwise. -/
theorem parse_eq_specChain (P : Bool → String → Except String FileT)
    (opt : Options) (src : String) :
    parse P opt src = parseSpecChain P opt src := by
  simp only [parse, parseSpecChain, attemptWhole, attemptDecls, attemptStmts,
    Except.map]
  cases P opt.allErrors src with
  | ok f => rfl
  | error e1 =>
    simp only []
    cases hfc : opt.fragment && strContains e1 pkgNeedle with
    | false => simp [hfc]
    | true =>
      simp only [hfc, Bool.not_true, Bool.false_eq_true, if_false, if_true]
      cases P opt.allErrors (pkgClauseText ++ src) with
      | ok f => cases hm : containsMainFunc f <;> simp [hm]
      | error e2 =>
        cases hd : strContains e2 declNeedle with
        | false => simp [hd]
        | true =>
          simp only [hd, Bool.not_true, Bool.false_eq_true, if_false, if_true]
          cases P opt.allErrors (stmtOpenText ++ src ++ stmtCloseText) <;> rfl

theorem mapO_length {α β : Type} (f : α → Option β) :
    ∀ (l : List α) (r : List β), mapO f l = some r → r.length = l.length := by
  intro l
  induction l with
  | nil =>
    intro r h
    simp only [mapO, Option.some.injEq] at h
    subst h
    rfl
  | cons a as ih =>
    intro r h
    simp only [mapO] at h
    cases hf : f a with
    | none => rw [hf] at h; exact absurd h (by simp)
    | some b =>
      rw [hf] at h
      cases hm : mapO f as with
      | none => rw [hm] at h; exact absurd h (by simp)
      | some bs =>
        rw [hm] at h
        simp only [Option.some.injEq] at h
        subst h
        simp [ih bs hm]

theorem mapE_chain_fixpoint {α ε : Type} (F G : α → Except ε α)
    (hFG : ∀ a b c, F a = .ok b → G b = .ok c → F c = .ok c ∧ G c = .ok c) :
    ∀ (l m r : List α), mapE F l = .ok m → mapE G m = .ok r →
      mapE F r = .ok r ∧ mapE G r = .ok r := by
  intro l
  induction l with
  | nil =>
    intro m r hm hr
    simp only [mapE, Except.ok.injEq] at hm
    subst hm
    simp only [mapE, Except.ok.injEq] at hr
    subst hr
    exact ⟨rfl, rfl⟩
  | cons a as ih =>
    intro m r hm hr
    simp only [mapE] at hm
    cases hfa : F a with
    | error e => rw [hfa] at hm; exact absurd hm (by simp)
    | ok b =>
      rw [hfa] at hm
      cases hms : mapE F as with
      | error e => rw [hms] at hm; exact absurd hm (by simp)
      | ok bs =>
        rw [hms] at hm
        simp only [Except.ok.injEq] at hm
        subst hm
        simp only [mapE] at hr
        cases hgb : G b with
        | error e => rw [hgb] at hr; exact absurd hr (by simp)
        | ok c =>
          rw [hgb] at hr
          cases hgs : mapE G bs with
          | error e => rw [hgs] at hr; exact absurd hr (by simp)
          | ok cs =>
            rw [hgs] at hr
            simp only [Except.ok.injEq] at hr
            subst hr
            obtain ⟨hc1, hc2⟩ := hFG a b c hfa hgb
            obtain ⟨hl1, hl2⟩ := ih bs cs hms hgs
            constructor
            · simp only [mapE, hc1, hl1]
            · simp only [mapE, hc2, hl2]

theorem mapE_fixpoint {α ε : Type} (F : α → Except ε α)
    (hF : ∀ a b, F a = .ok b → F b = .ok b) :
    ∀ (l r : List α), mapE F l = .ok r → mapE F r = .ok r := by
  intro l
  induction l with
  | nil =>
    intro r h
    simp only [mapE, Except.ok.injEq] at h
    subst h
    rfl
  | cons a as ih =>
    intro r h
    simp only [mapE] at h
    cases hfa : F a with
    | error e => rw [hfa] at h; exact absurd h (by simp)
    | ok b =>
      rw [hfa] at h
      cases hms : mapE F as with
      | error e => rw [hms] at h; exact absurd h (by simp)
      | ok bs =>
        rw [hms] at h
        simp only [Except.ok.injEq] at h
        subst h
        simp only [mapE, hF a b hfa, ih bs hms]

theorem fixRet_fixpoint (ti : Option TypeInfo) (ft : FuncType)
    (rs g : List Expr) (h : fixRet ti ft rs = .ok g) :
    fixRet ti ft g = .ok g := by
  rcases ft with ⟨results⟩
  cases results with
  | none =>
    simp only [fixRet, Except.ok.injEq] at h
    subst h
    rfl
  | some fields =>
    simp only [fixRet] at h ⊢
    by_cases h1 : rs.length = fields.length
    · rw [if_pos h1] at h
      simp only [Except.ok.injEq] at h
      subst h
      rw [if_pos h1]
    · rw [if_neg h1] at h
      by_cases h2 : rs.length = 0
      · rw [if_pos h2] at h
        simp only [Except.ok.injEq] at h
        subst h
        rw [if_neg h1, if_pos h2]
      · rw [if_neg h2] at h
        by_cases h3 : fields.length < rs.length
        · rw [if_pos h3] at h
          simp only [Except.ok.injEq] at h
          subst h
          rw [if_neg h1, if_neg h2, if_pos h3]
        · rw [if_neg h3] at h
          cases hc : callCheck ti rs with
          | error m => rw [hc] at h; exact absurd h (by simp)
          | ok b =>
            rw [hc] at h
            cases b with
            | false =>
              simp only [Except.ok.injEq] at h
              subst h
              rw [if_neg h1, if_neg h2, if_neg h3, hc]
            | true =>
              cases hz : mapO (fun rt => newZeroValueNode rt.type)
                  (fields.take (fields.length - rs.length)) with
              | none =>
                rw [hz] at h
                simp only [Except.ok.injEq] at h
                subst h
                rw [if_neg h1, if_neg h2, if_neg h3, hc, hz]
              | some zvs =>
                rw [hz] at h
                simp only [Except.ok.injEq] at h
                subst h
                have hlt : rs.length < fields.length := by omega
                have hzl : zvs.length = fields.length - rs.length := by
                  have := mapO_length _ _ _ hz
                  simpa [List.length_take, Nat.min_eq_left (Nat.sub_le _ _)] using this
                have hlen : (zvs ++ rs).length = fields.length := by
                  simp [hzl]
                  omega
                rw [if_pos hlen]

theorem removeBareRet_after_fix (ti : Option TypeInfo) (ft : FuncType)
    (g : List Expr) (hg : fixRet ti ft g = .ok g) :
    fixRet ti ft (removeBareRet ft g) = .ok (removeBareRet ft g) ∧
      removeBareRet ft (removeBareRet ft g) = removeBareRet ft g := by
  rcases ft with ⟨results⟩
  cases results with
  | none => exact ⟨hg, rfl⟩
  | some fields =>
    by_cases h1 : g.length = fields.length
    · have hr : removeBareRet ⟨some fields⟩ g = g := by
        simp [removeBareRet, h1]
      rw [hr]
      exact ⟨hg, hr⟩
    · by_cases h2 : g.length = 0 ∧ 0 < fields.length
      · cases hn : mapO (fun rt => rt.names.head?) fields with
        | none =>
          have hr : removeBareRet ⟨some fields⟩ g = g := by
            simp only [removeBareRet]
            rw [if_neg h1, if_pos (by simp [h2.1, h2.2]), hn]
          rw [hr]
          exact ⟨hg, hr⟩
        | some ns =>
          have hr : removeBareRet ⟨some fields⟩ g = ns.map Expr.identX ++ g := by
            simp only [removeBareRet]
            rw [if_neg h1, if_pos (by simp [h2.1, h2.2]), hn]
          have hg0 : g = [] := List.length_eq_zero.mp h2.1
          have hlen : (ns.map Expr.identX ++ g).length = fields.length := by
            simp [hg0, mapO_length _ _ _ hn]
          constructor
          · rw [hr]
            simp only [fixRet]
            rw [if_pos hlen]
          · rw [hr]
            simp only [removeBareRet]
            rw [if_pos hlen]
      · have hr : removeBareRet ⟨some fields⟩ g = g := by
          simp only [removeBareRet]
          rw [if_neg h1, if_neg (by simpa using fun ha hb => h2 ⟨ha, hb⟩)]
        rw [hr]
        exact ⟨hg, hr⟩

theorem fixRetB_fixpoint (ti : Option TypeInfo) (a b : RetBinding)
    (h : fixRetB ti a = .ok b) : fixRetB ti b = .ok b := by
  rcases a with ⟨ftyp, rs⟩
  cases ftyp with
  | none => exact absurd h (by simp [fixRetB])
  | some ft =>
    simp only [fixRetB] at h
    cases hf : fixRet ti ft rs with
    | error e => rw [hf] at h; exact absurd h (by simp)
    | ok rs1 =>
      rw [hf] at h
      simp only [Except.ok.injEq] at h
      subst h
      simp only [fixRetB, fixRet_fixpoint ti ft rs rs1 hf]

theorem fixRetB_then_bare (ti : Option TypeInfo) (a b c : RetBinding)
    (hab : fixRetB ti a = .ok b) (hbc : removeBareRetB b = .ok c) :
    fixRetB ti c = .ok c ∧ removeBareRetB c = .ok c := by
  rcases a with ⟨ftyp, rs⟩
  cases ftyp with
  | none => exact absurd hab (by simp [fixRetB])
  | some ft =>
    simp only [fixRetB] at hab
    cases hf : fixRet ti ft rs with
    | error e => rw [hf] at hab; exact absurd hab (by simp)
    | ok rs1 =>
      rw [hf] at hab
      simp only [Except.ok.injEq] at hab
      subst hab
      simp only [removeBareRetB, Except.ok.injEq] at hbc
      subst hbc
      have hfix := fixRet_fixpoint ti ft rs rs1 hf
      obtain ⟨hc1, hc2⟩ := removeBareRet_after_fix ti ft rs1 hfix
      constructor
      · simp only [fixRetB, hc1]
      · simp only [removeBareRetB, hc2]

theorem engine_fixpoint (ti : Option TypeInfo) (opt : Options)
    (f g : List RetBinding) (h : engine ti opt f = .ok g) :
    engine ti opt g = .ok g := by
  simp only [engine, fixReturnsF, removeBareReturnsF] at h ⊢
  cases hf : mapE (fixRetB ti) f with
  | error e => rw [hf] at h; exact absurd h (by simp)
  | ok f1 =>
    simp only [hf] at h
    cases hb : opt.removeBareReturns with
    | true =>
      simp only [hb, if_true] at h
      obtain ⟨hg1, hg2⟩ := mapE_chain_fixpoint (fixRetB ti) removeBareRetB
        (fixRetB_then_bare ti) f f1 g hf h
      simp only [hg1, hb, if_true]
      exact hg2
    | false =>
      simp only [hb, Bool.false_eq_true, if_false, Except.ok.injEq] at h
      subst h
      simp only [mapE_fixpoint (fixRetB ti) (fixRetB_fixpoint ti) f f1 hf, hb,
        Bool.false_eq_true, if_false]

/-- Claim C9: Process is idempotent.  The external parse front end and the
print-adjust-format back end are oracles; the stated hypothesis is that
reparsing printed output recovers the printed tree (the collaborator
round-trip contract).  Under it, a successful run of Process reprocessed
on its own output succeeds and returns that output unchanged: the engine
never re-completes or double-fills a completed return. -/
theorem process_idempotent {β : Type} (parseF : β → Except String (List RetBinding))
    (printF : List RetBinding → β) (ti : Option TypeInfo) (opt : Options)
    (hpp : ∀ f, parseF (printF f) = .ok f) (src out : β)
    (h : ProcessB parseF printF ti opt src = .ok out) :
    ProcessB parseF printF ti opt out = .ok out := by
  simp only [ProcessB] at h ⊢
  cases hp : parseF src with
  | error e => rw [hp] at h; exact absurd h (by simp)
  | ok f =>
    simp only [hp] at h
    cases he : engine ti opt f with
    | error e => rw [he] at h; exact absurd h (by simp)
    | ok f1 =>
      simp only [he, Except.ok.injEq] at h
      subst h
      simp only [hpp f1, engine_fixpoint ti opt f f1 he]

/-- Witness for claim C9: a concrete instantiation with the identity
round-trip, on the binding of return e inside a function typed
(int, error); the first run completes the return to 0, e and the second
run returns the output unchanged. -/
theorem process_idempotent_witness :
    ProcessB (β := List RetBinding) Except.ok id none ⟨true, false, false, true⟩
        [⟨some ⟨some [⟨[], .identT "int"⟩, ⟨[], .identT "error"⟩]⟩, [.identX "e"]⟩]
      = .ok [⟨some ⟨some [⟨[], .identT "int"⟩, ⟨[], .identT "error"⟩]⟩,
          [.basicLit .intL "0", .identX "e"]⟩] ∧
    ProcessB (β := List RetBinding) Except.ok id none ⟨true, false, false, true⟩
        [⟨some ⟨some [⟨[], .identT "int"⟩, ⟨[], .identT "error"⟩]⟩,
          [.basicLit .intL "0", .identX "e"]⟩]
      = .ok [⟨some ⟨some [⟨[], .identT "int"⟩, ⟨[], .identT "error"⟩]⟩,
          [.basicLit .intL "0", .identX "e"]⟩] :=
  ⟨rfl,
   process_idempotent Except.ok id none ⟨true, false, false, true⟩
     (fun _ => rfl)
     [⟨some ⟨some [⟨[], .identT "int"⟩, ⟨[], .identT "error"⟩]⟩, [.identX "e"]⟩]
     [⟨some ⟨some [⟨[], .identT "int"⟩, ⟨[], .identT "error"⟩]⟩,
       [.basicLit .intL "0", .identX "e"]⟩]
     rfl⟩

theorem mem_collectList (x : Nat × Option FuncType) (encl : Option FuncType) :
    ∀ cs : List Node, x ∈ collect.collectList encl cs ↔
      ∃ (i : Nat) (c : Node), cs[i]? = some c ∧ x ∈ collect encl c := by
  intro cs
  induction cs with
  | nil => simp [collect.collectList]
  | cons c cs ih =>
    simp only [collect.collectList, List.mem_append, ih]
    constructor
    · rintro (hx | ⟨i, d, hd, hx⟩)
      · exact ⟨0, c, by simp, hx⟩
      · exact ⟨i + 1, d, by simpa using hd, hx⟩
    · rintro ⟨i, d, hd, hx⟩
      cases i with
      | zero =>
        simp only [List.getElem?_cons_zero, Option.some.injEq] at hd
        subst hd
        exact Or.inl hx
      | succ i => exact Or.inr ⟨i, d, by simpa using hd, hx⟩

theorem sizeOf_child_lt (n c : Node) (h : c ∈ childrenOf n) :
    sizeOf c < sizeOf n := by
  have hlt := List.sizeOf_lt_of_mem h
  cases n <;> simp [childrenOf] at hlt ⊢ <;> omega

theorem collect_scope_aux : ∀ (k : Nat) (n : Node), sizeOf n ≤ k →
    ∀ (encl : Option FuncType) (rid : Nat) (s : Option FuncType),
      ((rid, s) ∈ collect encl n ↔
        ∃ p cs, nodeAt n p = some (.retN rid cs) ∧ sigFor encl n p = s) := by
  intro k
  induction k with
  | zero =>
    intro n hn
    exact absurd hn (by cases n <;> simp)
  | succ k ih =>
    intro n hn encl rid s
    have hch : ∀ c ∈ childrenOf n, sizeOf c ≤ k := by
      intro c hc
      have := sizeOf_child_lt n c hc
      omega
    cases n with
    | retN rid0 cs =>
      simp only [collect, List.mem_cons, mem_collectList, Prod.mk.injEq]
      constructor
      · rintro (⟨hr, hs⟩ | ⟨i, c, hci, hx⟩)
        · exact ⟨[], cs, by rw [hr]; rfl, hs.symm⟩
        · have hcm : c ∈ childrenOf (.retN rid0 cs) := by
            simp only [childrenOf]
            exact List.getElem?_mem hci
          obtain ⟨p, cs1, h1, h2⟩ :=
            ((ih c (hch c hcm)) encl rid s).mp hx
          refine ⟨i :: p, cs1, ?_, ?_⟩
          · simp only [nodeAt, childrenOf, hci]
            exact h1
          · simp only [sigFor, childrenOf, hci, sigUpdate]
            exact h2
      · rintro ⟨p, cs1, h1, h2⟩
        cases p with
        | nil =>
          simp only [nodeAt, Option.some.injEq, Node.retN.injEq] at h1
          simp only [sigFor] at h2
          exact Or.inl ⟨h1.1.symm, h2.symm⟩
        | cons i p =>
          simp only [nodeAt, childrenOf] at h1
          cases hci : cs[i]? with
          | none => rw [hci] at h1; exact absurd h1 (by simp)
          | some c =>
            rw [hci] at h1
            simp only [sigFor, childrenOf, hci, sigUpdate] at h2
            have hcm : c ∈ childrenOf (.retN rid0 cs) := by
              simp only [childrenOf]
              exact List.getElem?_mem hci
            exact Or.inr ⟨i, c, hci,
              ((ih c (hch c hcm)) encl rid s).mpr ⟨p, cs1, h1, h2⟩⟩
    | fnN lit ft cs =>
      simp only [collect, mem_collectList]
      constructor
      · rintro ⟨i, c, hci, hx⟩
        have hcm : c ∈ childrenOf (.fnN lit ft cs) := by
          simp only [childrenOf]
          exact List.getElem?_mem hci
        obtain ⟨p, cs1, h1, h2⟩ :=
          ((ih c (hch c hcm)) (some ft) rid s).mp hx
        refine ⟨i :: p, cs1, ?_, ?_⟩
        · simp only [nodeAt, childrenOf, hci]
          exact h1
        · simp only [sigFor, childrenOf, hci, sigUpdate]
          exact h2
      · rintro ⟨p, cs1, h1, h2⟩
        cases p with
        | nil => exact absurd h1 (by simp [nodeAt])
        | cons i p =>
          simp only [nodeAt, childrenOf] at h1
          cases hci : cs[i]? with
          | none => rw [hci] at h1; exact absurd h1 (by simp)
          | some c =>
            rw [hci] at h1
            simp only [sigFor, childrenOf, hci, sigUpdate] at h2
            have hcm : c ∈ childrenOf (.fnN lit ft cs) := by
              simp only [childrenOf]
              exact List.getElem?_mem hci
            exact ⟨i, c, hci,
              ((ih c (hch c hcm)) (some ft) rid s).mpr ⟨p, cs1, h1, h2⟩⟩
    | blockN cs =>
      simp only [collect, mem_collectList]
      constructor
      · rintro ⟨i, c, hci, hx⟩
        have hcm : c ∈ childrenOf (.blockN cs) := by
          simp only [childrenOf]
          exact List.getElem?_mem hci
        obtain ⟨p, cs1, h1, h2⟩ :=
          ((ih c (hch c hcm)) encl rid s).mp hx
        refine ⟨i :: p, cs1, ?_, ?_⟩
        · simp only [nodeAt, childrenOf, hci]
          exact h1
        · simp only [sigFor, childrenOf, hci, sigUpdate]
          exact h2
      · rintro ⟨p, cs1, h1, h2⟩
        cases p with
        | nil => exact absurd h1 (by simp [nodeAt])
        | cons i p =>
          simp only [nodeAt, childrenOf] at h1
          cases hci : cs[i]? with
          | none => rw [hci] at h1; exact absurd h1 (by simp)
          | some c =>
            rw [hci] at h1
            simp only [sigFor, childrenOf, hci, sigUpdate] at h2
            have hcm : c ∈ childrenOf (.blockN cs) := by
              simp only [childrenOf]
              exact List.getElem?_mem hci
            exact ⟨i, c, hci,
              ((ih c (hch c hcm)) encl rid s).mpr ⟨p, cs1, h1, h2⟩⟩

/-- Claim C5: the return-to-signature binding built by the visitor is
exactly the path-based innermost-enclosing-signature relation: a pair
(rid, s) is recorded by the traversal started with enclosing signature
encl if and only if some path reaches a return statement rid and the
innermost function declaration or literal signature in force along that
path (encl when there is none) is s.  In particular a return inside a
nested function literal binds to that literal's own signature at any
depth, never to an ancestor's, and a return after the literal binds to
the outer signature again. -/
theorem collect_scope_correct (n : Node) (encl : Option FuncType) (rid : Nat)
    (s : Option FuncType) :
    (rid, s) ∈ collect encl n ↔
      ∃ p cs, nodeAt n p = some (.retN rid cs) ∧ sigFor encl n p = s :=
  collect_scope_aux (sizeOf n) n (Nat.le_refl _) encl rid s

theorem take_len_takeWhile (p : α → Bool) (l : List α) :
    l.take ((l.takeWhile p).length) = l.takeWhile p :=
  (List.prefix_iff_eq_take.mp (List.takeWhile_prefix p)).symm

theorem drop_len_takeWhile (p : α → Bool) (l : List α) :
    l.drop ((l.takeWhile p).length) = l.dropWhile p := by
  calc l.drop ((l.takeWhile p).length)
      = (l.takeWhile p ++ l.dropWhile p).drop ((l.takeWhile p).length) := by
        rw [List.takeWhile_append_dropWhile]
    _ = l.dropWhile p := List.drop_left _ _

theorem take_sub_rev_takeWhile (q : α → Bool) (m : List α) :
    m.reverse.take (m.length - (m.takeWhile q).length) = (m.dropWhile q).reverse := by
  have hsplit : m.reverse = (m.dropWhile q).reverse ++ (m.takeWhile q).reverse := by
    rw [← List.reverse_append, List.takeWhile_append_dropWhile]
  have hlen : m.length - (m.takeWhile q).length = (m.dropWhile q).reverse.length := by
    have hm := congrArg List.length (List.takeWhile_append_dropWhile q m)
    simp only [List.length_append] at hm
    simp only [List.length_reverse]
    omega
  rw [hsplit, hlen, List.take_left]

theorem drop_sub_rev_takeWhile (q : α → Bool) (m : List α) :
    m.reverse.drop (m.length - (m.takeWhile q).length) = (m.takeWhile q).reverse := by
  have hsplit : m.reverse = (m.dropWhile q).reverse ++ (m.takeWhile q).reverse := by
    rw [← List.reverse_append, List.takeWhile_append_dropWhile]
  have hlen : m.length - (m.takeWhile q).length = (m.dropWhile q).reverse.length := by
    have hm := congrArg List.length (List.takeWhile_append_dropWhile q m)
    simp only [List.length_append] at hm
    simp only [List.length_reverse]
    omega
  rw [hsplit, hlen, List.drop_left]

theorem take_rev_formula (q : α → Bool) (l : List α) :
    l.take (l.length - (l.reverse.takeWhile q).length)
      = (l.reverse.dropWhile q).reverse := by
  have h := take_sub_rev_takeWhile q l.reverse
  simpa using h

theorem drop_rev_formula (q : α → Bool) (l : List α) :
    l.drop (l.length - (l.reverse.takeWhile q).length)
      = (l.reverse.takeWhile q).reverse := by
  have h := drop_sub_rev_takeWhile q l.reverse
  simpa using h

theorem takeWhile_append_of_exists {p : α → Bool} {l : List α} (l₂ : List α)
    (h : ∃ x ∈ l, p x = false) : (l ++ l₂).takeWhile p = l.takeWhile p := by
  rw [List.takeWhile_append, if_neg]
  intro hlen
  have heq : l.takeWhile p = l := (List.takeWhile_prefix p).eq_of_length hlen
  obtain ⟨x, hx, hpx⟩ := h
  have := List.mem_takeWhile_imp (heq ▸ hx)
  simp [hpx] at this

theorem rev_takeWhile_via_dropWhile {p : α → Bool} {l : List α}
    (h : ∃ x ∈ l, p x = false) :
    l.reverse.takeWhile p = (l.dropWhile p).reverse.takeWhile p := by
  have hsplit : l.reverse = (l.dropWhile p).reverse ++ (l.takeWhile p).reverse := by
    rw [← List.reverse_append, List.takeWhile_append_dropWhile]
  have hwit : ∃ x ∈ (l.dropWhile p).reverse, p x = false := by
    obtain ⟨x, hx, hpx⟩ := h
    refine ⟨x, ?_, hpx⟩
    rw [List.mem_reverse]
    have hx2 : x ∈ l.takeWhile p ++ l.dropWhile p := by
      rw [List.takeWhile_append_dropWhile]
      exact hx
    rcases List.mem_append.mp hx2 with htw | hdw
    · exact absurd (List.mem_takeWhile_imp htw) (by simp [hpx])
    · exact hdw
  rw [hsplit, takeWhile_append_of_exists _ hwit]

theorem cutSpace_of_exists {l : List Char} (h : ∃ x ∈ l, isSpc x = false) :
    cutSpace l = (leadingWS l, stripWS l, trailingWS l) := by
  have hwitD : ∃ x ∈ l.dropWhile isSpc, isSpc x = false := by
    obtain ⟨x, hx, hpx⟩ := h
    refine ⟨x, ?_, hpx⟩
    have hx2 : x ∈ l.takeWhile isSpc ++ l.dropWhile isSpc := by
      rw [List.takeWhile_append_dropWhile]
      exact hx
    rcases List.mem_append.mp hx2 with htw | hdw
    · exact absurd (List.mem_takeWhile_imp htw) (by simp [hpx])
    · exact hdw
  have hrtw : l.reverse.takeWhile isSpc
      = (l.dropWhile isSpc).reverse.takeWhile isSpc :=
    rev_takeWhile_via_dropWhile h
  have hlsplit := congrArg List.length (List.takeWhile_append_dropWhile isSpc l)
  simp only [List.length_append] at hlsplit
  have hrle : (l.reverse.takeWhile isSpc).length ≤ (l.dropWhile isSpc).length := by
    rw [hrtw]
    calc ((l.dropWhile isSpc).reverse.takeWhile isSpc).length
        ≤ (l.dropWhile isSpc).reverse.length := (List.takeWhile_prefix _).length_le
      _ = (l.dropWhile isSpc).length := List.length_reverse _
  have hij : (l.takeWhile isSpc).length
      ≤ l.length - (l.reverse.takeWhile isSpc).length := by omega
  simp only [cutSpace, if_pos hij]
  refine congrArg₂ _ ?_ (congrArg₂ _ ?_ ?_)
  · exact take_len_takeWhile isSpc l
  · rw [drop_len_takeWhile isSpc l]
    have harith : l.length - (l.reverse.takeWhile isSpc).length
        - (l.takeWhile isSpc).length
        = (l.dropWhile isSpc).length
          - ((l.dropWhile isSpc).reverse.takeWhile isSpc).length := by
      rw [hrtw] at *
      omega
    rw [harith]
    exact take_rev_formula isSpc (l.dropWhile isSpc)
  · exact drop_rev_formula isSpc l

theorem cutSpace_middle_eq_strip (l : List Char) :
    (cutSpace l).2.1 = stripWS l := by
  by_cases h : ∃ x ∈ l, isSpc x = false
  · rw [cutSpace_of_exists h]
  · push_neg at h
    have hall : ∀ x ∈ l, isSpc x = true := by
      intro x hx
      have := h x hx
      revert this
      cases isSpc x <;> simp
    have hdw : l.dropWhile isSpc = [] := List.dropWhile_eq_nil_iff.mpr hall
    have hstrip : stripWS l = [] := by
      simp [stripWS, hdw]
    rw [hstrip]
    have htw : l.takeWhile isSpc = l := List.takeWhile_eq_self_iff.mpr hall
    have hrtw : l.reverse.takeWhile isSpc = l.reverse :=
      List.takeWhile_eq_self_iff.mpr (by simpa using hall)
    cases hl : l with
    | nil => rfl
    | cons c cs =>
      have hlen0 : l.length - (l.reverse.takeWhile isSpc).length = 0 := by
        rw [hrtw]
        simp
      have hnotle : ¬ ((l.takeWhile isSpc).length
          ≤ l.length - (l.reverse.takeWhile isSpc).length) := by
        rw [hlen0, htw, hl]
        simp
      rw [← hl]
      simp only [cutSpace, if_neg hnotle]

theorem writeLines_eq_aux : ∀ (k : Nat) (s : List Char), s.length ≤ k →
    ∀ ind, writeLines ind s = indentNonblank ind s := by
  intro k
  induction k with
  | zero =>
    intro s hs ind
    have hnil : s = [] := List.length_eq_zero.mp (Nat.le_zero.mp hs)
    subst hnil
    simp [writeLines, indentNonblank, toLines]
  | succ k ih =>
    intro s hs ind
    cases s with
    | nil => simp [writeLines, indentNonblank, toLines]
    | cons c cs =>
      have hlen2 : (splitLine (c :: cs)).2.length ≤ k := by
        have hshrink := splitLineShrink (c :: cs) (by simp)
        simp only [List.length_cons] at hs hshrink
        omega
      have hrec := ih (splitLine (c :: cs)).2 hlen2 ind
      rw [writeLines, hrec]
      simp only [indentNonblank]
      rw [toLines]
      simp only [List.flatMap_cons]
      cases hp : (splitLine (c :: cs)).1 with
      | nil => simp
      | cons d ds =>
        by_cases hd : d = nlChar
        · simp [hd]
        · simp [hd]

/-- Claim C8: for every original that has a first non-blank line (some
byte is not whitespace, which the claim presupposes by speaking of that
line's indentation), matchSpace produces exactly the leading blank-line
run of the original, then the transformed bytes stripped of their own
leading and trailing whitespace with the indentation of the original's
first non-blank line prepended to every non-blank line, then the
original's exact trailing whitespace. -/
theorem matchSpace_spec (orig src : List Char)
    (h : ∃ c ∈ orig, isSpc c = false) :
    matchSpace orig src = specMatchSpace orig src := by
  have hcut := cutSpace_of_exists h
  simp only [matchSpace, specMatchSpace, hcut, cutSpace_middle_eq_strip]
  rw [take_rev_formula, drop_rev_formula,
    writeLines_eq_aux ((stripWS src).length) (stripWS src) (Nat.le_refl _)]
  rfl

/-- Witness for claim C8: a concrete original with a blank first line,
an indented first non-blank line and trailing whitespace. -/
theorem matchSpace_spec_witness :
    (∃ c ∈ ("\n  ab \n".toList), isSpc c = false) ∧
      matchSpace ("\n  ab \n".toList) (" x\n\ny ".toList)
        = specMatchSpace ("\n  ab \n".toList) (" x\n\ny ".toList) :=
  ⟨by decide, matchSpace_spec _ _ (by decide)⟩

end Goreturns
